import Mathlib

/-!
Verification of the subtensor network-lifecycle and fund-settlement engine
against its natural-language specification.

The repository sources under verification are the tests in
`pallets/subtensor/src/tests/networks.rs` and the migration
`pallets/subtensor/src/migrations/migrate_coldkey_swap_scheduled.rs`.
The settlement implementation itself (`do_dissolve_network`,
`destroy_alpha_in_out_stakes`, `get_network_to_prune`,
`do_register_network`) is not part of the provided sources, so those
operations are modelled from the specification (definitions carry a
doc comment starting with the words Modelled from the spec); the
migration is embedded directly from its Rust source.
-/

namespace Subtensor

/-! ## Apportionment algorithm (largest remainder method, spec section 4.1) -/

/-- Modelled from the spec: the base share of a claimant of weight `w`
in a pot `P` with total weight `W` is `floor(P * w / W)`
(the implementation `destroy_alpha_in_out_stakes` is not under the
provided sources; this follows spec section 4.1). -/
def baseShare (P W w : Nat) : Nat := P * w / W

/-- Modelled from the spec: the fractional remainder of a claimant of
weight `w` is `(P * w) mod W` (spec section 4.1). -/
def remShare (P W w : Nat) : Nat := P * w % W

/-- Modelled from the spec: the priority order on indexed claimants used to
assign leftover units: larger fractional remainder first, ties broken by
the claimant identity (input index) ascending (spec section 4.1). -/
def remOrder (P W : Nat) (a b : Nat × Nat) : Prop :=
  remShare P W b.2 < remShare P W a.2 ∨
    (remShare P W a.2 = remShare P W b.2 ∧ a.1 ≤ b.1)

instance (P W : Nat) : DecidableRel (remOrder P W) := fun a b => by
  unfold remOrder; infer_instance

instance (P W : Nat) : IsTotal (Nat × Nat) (remOrder P W) := by
  constructor
  intro a b
  rcases Nat.lt_trichotomy (remShare P W a.2) (remShare P W b.2) with h | h | h
  · exact Or.inr (Or.inl h)
  · rcases Nat.le_total a.1 b.1 with h2 | h2
    · exact Or.inl (Or.inr ⟨h, h2⟩)
    · exact Or.inr (Or.inr ⟨h.symm, h2⟩)
  · exact Or.inl (Or.inl h)

instance (P W : Nat) : IsTrans (Nat × Nat) (remOrder P W) := by
  constructor
  intro a b c hab hbc
  rcases hab with h1 | ⟨h1, h1'⟩ <;> rcases hbc with h2 | ⟨h2, h2'⟩
  · exact Or.inl (Nat.lt_trans h2 h1)
  · exact Or.inl (h2 ▸ h1)
  · exact Or.inl (h1 ▸ h2)
  · exact Or.inr ⟨h1.trans h2, Nat.le_trans h1' h2'⟩

/-- Modelled from the spec: claimants (index, weight) sorted by descending
fractional remainder, ties by index (spec section 4.1). -/
def sortedClaimants (P : Nat) (ws : List Nat) : List (Nat × Nat) :=
  List.insertionSort (remOrder P ws.sum) ws.enum

/-- Sum of the base shares of all claimants. -/
def baseSum (P : Nat) (ws : List Nat) : Nat :=
  (ws.map fun w => baseShare P ws.sum w).sum

/-- Modelled from the spec: the leftover units `P - sum of base shares`
(spec section 4.1). -/
def leftover (P : Nat) (ws : List Nat) : Nat := P - baseSum P ws

/-- Modelled from the spec: the claimants that receive one extra unit:
the `leftover` claimants with the largest fractional remainders. -/
def extras (P : Nat) (ws : List Nat) : List (Nat × Nat) :=
  (sortedClaimants P ws).take (leftover P ws)

/-- Modelled from the spec: the apportionment of pot `P` over weights `ws`:
each claimant gets its base share, plus one extra unit if it is among the
`leftover` claimants with the largest remainders; if the total weight is
zero, no distribution occurs (spec section 4.1). -/
def apportion (P : Nat) (ws : List Nat) : List Nat :=
  if ws.sum = 0 then ws.map fun _ => 0
  else ws.enum.map fun iw =>
    baseShare P ws.sum iw.2 + if iw ∈ extras P ws then 1 else 0

theorem sum_map_add {α : Type} (l : List α) (f g : α → Nat) :
    (l.map fun x => f x + g x).sum = (l.map f).sum + (l.map g).sum := by
  induction l with
  | nil => rfl
  | cons a t ih => simp [List.map_cons, List.sum_cons, ih]; omega

theorem sum_div_add_mod (P W : Nat) (ws : List Nat) :
    W * (ws.map fun w => baseShare P W w).sum
      + (ws.map fun w => remShare P W w).sum = P * ws.sum := by
  induction ws with
  | nil => simp
  | cons w t ih =>
    have h := Nat.div_add_mod (P * w) W
    simp only [List.map_cons, List.sum_cons, List.sum_cons]
    unfold baseShare remShare at *
    calc W * (P * w / W + (t.map fun w => P * w / W).sum)
          + (P * w % W + (t.map fun w => P * w % W).sum)
        = (W * (P * w / W) + P * w % W)
          + (W * (t.map fun w => P * w / W).sum + (t.map fun w => P * w % W).sum) := by ring
      _ = P * w + P * t.sum := by rw [h, ih]
      _ = P * (w + t.sum) := by ring

theorem baseSum_le (P : Nat) (ws : List Nat) (hW : 0 < ws.sum) :
    baseSum P ws ≤ P := by
  have h := sum_div_add_mod P ws.sum ws
  have h1 : ws.sum * baseSum P ws ≤ ws.sum * P := by
    unfold baseSum
    calc ws.sum * (ws.map fun w => baseShare P ws.sum w).sum
        ≤ ws.sum * (ws.map fun w => baseShare P ws.sum w).sum
            + (ws.map fun w => remShare P ws.sum w).sum := Nat.le_add_right _ _
      _ = P * ws.sum := h
      _ = ws.sum * P := Nat.mul_comm _ _
  exact Nat.le_of_mul_le_mul_left h1 hW

theorem leftover_lt_length (P : Nat) (ws : List Nat) (hW : 0 < ws.sum) :
    leftover P ws < ws.length := by
  have hlen : 0 < ws.length := by
    cases ws with
    | nil => simp at hW
    | cons a t => simp
  have hmain := sum_div_add_mod P ws.sum ws
  have hrem : (ws.map fun w => remShare P ws.sum w).sum ≤ ws.length * (ws.sum - 1) := by
    have h := List.sum_le_card_nsmul (ws.map fun w => remShare P ws.sum w) (ws.sum - 1)
      (by
        intro x hx
        rcases List.mem_map.mp hx with ⟨w, _, rfl⟩
        have := Nat.mod_lt (P * w) hW
        unfold remShare
        omega)
    simpa [List.length_map, smul_eq_mul] using h
  by_contra hcon
  push_neg at hcon
  have hb := baseSum_le P ws hW
  have hP : baseSum P ws + ws.length ≤ P := by
    unfold leftover at hcon; omega
  have h1 : ws.sum * (baseSum P ws + ws.length) ≤ ws.sum * P :=
    Nat.mul_le_mul_left _ hP
  have h2 : ws.sum * P = ws.sum * baseSum P ws
      + (ws.map fun w => remShare P ws.sum w).sum := by
    unfold baseSum at *
    rw [Nat.mul_comm ws.sum P, ← hmain]
  have h3 : ws.sum * ws.length ≤ (ws.map fun w => remShare P ws.sum w).sum := by
    rw [Nat.mul_add] at h1
    omega
  have h4 : ws.sum * ws.length ≤ ws.length * (ws.sum - 1) := Nat.le_trans h3 hrem
  have h5 : ws.length * ws.sum ≤ ws.length * (ws.sum - 1) := by
    rw [Nat.mul_comm ws.length ws.sum]
    exact h4
  have h6 : ws.sum ≤ ws.sum - 1 := Nat.le_of_mul_le_mul_left h5 hlen
  omega

theorem sum_map_congr_const {α : Type} (l : List α) (f : α → Nat) (c : Nat)
    (h : ∀ a ∈ l, f a = c) : (l.map f).sum = l.length * c := by
  induction l with
  | nil => simp
  | cons a t ih =>
    have ha := h a (List.mem_cons_self a t)
    have ht := ih fun x hx => h x (List.mem_cons_of_mem _ hx)
    simp [ha, ht]
    ring

theorem nodup_enum {α : Type} (l : List α) : l.enum.Nodup :=
  (List.nodup_enum_map_fst l).of_map

theorem sortedClaimants_perm (P : Nat) (ws : List Nat) :
    List.Perm (sortedClaimants P ws) ws.enum :=
  List.perm_insertionSort _ _

theorem sortedClaimants_sorted (P : Nat) (ws : List Nat) :
    List.Sorted (remOrder P ws.sum) (sortedClaimants P ws) :=
  List.sorted_insertionSort _ _

theorem extras_length (P : Nat) (ws : List Nat) (h : leftover P ws ≤ ws.length) :
    (extras P ws).length = leftover P ws := by
  unfold extras
  rw [List.length_take, (sortedClaimants_perm P ws).length_eq, List.enum_length]
  exact Nat.min_eq_left h

theorem sum_indicator_extras (P : Nat) (ws : List Nat) (hW : 0 < ws.sum) :
    (ws.enum.map fun iw => if iw ∈ extras P ws then 1 else 0).sum
      = leftover P ws := by
  have hperm := sortedClaimants_perm P ws
  have hmap := hperm.map (fun iw => if iw ∈ extras P ws then 1 else 0)
  rw [← hmap.sum_eq]
  have hnodup : (sortedClaimants P ws).Nodup :=
    hperm.nodup_iff.mpr (nodup_enum ws)
  have hsplit := List.take_append_drop (leftover P ws) (sortedClaimants P ws)
  have hdisj : ∀ x ∈ (sortedClaimants P ws).drop (leftover P ws),
      x ∉ (sortedClaimants P ws).take (leftover P ws) := by
    intro x hx
    have h := hsplit ▸ hnodup
    exact fun hmem =>
      (List.disjoint_of_nodup_append h) hmem hx
  calc ((sortedClaimants P ws).map fun iw => if iw ∈ extras P ws then 1 else 0).sum
      = ((((sortedClaimants P ws).take (leftover P ws))
            ++ ((sortedClaimants P ws).drop (leftover P ws))).map
            fun iw => if iw ∈ extras P ws then 1 else 0).sum := by rw [hsplit]
    _ = (((sortedClaimants P ws).take (leftover P ws)).map
            (fun iw => if iw ∈ extras P ws then 1 else 0)).sum
        + (((sortedClaimants P ws).drop (leftover P ws)).map
            (fun iw => if iw ∈ extras P ws then 1 else 0)).sum := by
          rw [List.map_append, List.sum_append]
    _ = ((sortedClaimants P ws).take (leftover P ws)).length * 1
        + ((sortedClaimants P ws).drop (leftover P ws)).length * 0 := by
          congr 1
          · exact sum_map_congr_const _ _ 1 fun a ha =>
              if_pos (show a ∈ extras P ws from ha)
          · exact sum_map_congr_const _ _ 0 fun a ha => if_neg (hdisj a ha)
    _ = leftover P ws := by
          rw [Nat.mul_one, Nat.mul_zero, Nat.add_zero, List.length_take,
            (sortedClaimants_perm P ws).length_eq, List.enum_length]
          exact Nat.min_eq_left (Nat.le_of_lt (leftover_lt_length P ws hW))

theorem apportion_sum (P : Nat) (ws : List Nat) (hW : 0 < ws.sum) :
    (apportion P ws).sum = P := by
  unfold apportion
  rw [if_neg (Nat.pos_iff_ne_zero.mp hW)]
  rw [sum_map_add ws.enum (fun iw => baseShare P ws.sum iw.2)
      (fun iw => if iw ∈ extras P ws then 1 else 0)]
  have hbase : (ws.enum.map fun iw => baseShare P ws.sum iw.2).sum = baseSum P ws := by
    have h : (ws.enum.map fun iw => baseShare P ws.sum iw.2)
        = (ws.enum.map Prod.snd).map fun w => baseShare P ws.sum w := by
      rw [List.map_map]
      rfl
    rw [h, List.enum_map_snd]
    rfl
  rw [hbase, sum_indicator_extras P ws hW]
  unfold leftover
  exact Nat.add_sub_cancel' (baseSum_le P ws hW)

theorem apportion_length (P : Nat) (ws : List Nat) :
    (apportion P ws).length = ws.length := by
  unfold apportion
  split <;> simp [List.enum_length]

theorem apportion_zero_pot (ws : List Nat) :
    ∀ x ∈ apportion 0 ws, x = 0 := by
  intro x hx
  unfold apportion at hx
  split at hx
  · rcases List.mem_map.mp hx with ⟨w, _, rfl⟩
    rfl
  · rcases List.mem_map.mp hx with ⟨iw, _, rfl⟩
    have hbase : baseShare 0 ws.sum iw.2 = 0 := by
      unfold baseShare
      simp
    have hleft : leftover 0 ws = 0 := by
      unfold leftover
      simp
    have hextras : extras 0 ws = [] := by
      unfold extras
      rw [hleft]
      rfl
    rw [hbase, hextras]
    simp

/-- Claim C1: conservation of the pot under apportionment.  For every
collection of networks, each with a non-negative integer pot and a weight
set of positive total, the shares credited by the settlement distribution
sum to exactly the pot of each network, so the grand total credited over
all dissolved networks equals the sum of all the pots: no unit is lost or
created. -/
theorem apportion_conserves_pot (nets : List (Nat × List Nat))
    (h : ∀ p ∈ nets, 0 < p.2.sum) :
    (nets.map fun p => (apportion p.1 p.2).sum).sum = (nets.map Prod.fst).sum := by
  induction nets with
  | nil => rfl
  | cons p t ih =>
    simp only [List.map_cons, List.sum_cons]
    rw [apportion_sum p.1 p.2 (h p (List.mem_cons_self p t)),
      ih fun q hq => h q (List.mem_cons_of_mem _ hq)]

theorem apportion_conserves_pot_witness :
    (∀ p ∈ [((10000 : Nat), [(300 : Nat), 700]), (1, [3, 2])], 0 < p.2.sum) ∧
    ([((10000 : Nat), [(300 : Nat), 700]), (1, [3, 2])].map
        fun p => (apportion p.1 p.2).sum).sum
      = ([((10000 : Nat), [(300 : Nat), 700]), (1, [3, 2])].map Prod.fst).sum :=
  ⟨by decide, apportion_conserves_pot _ (by decide)⟩

/-- Claim C2: the apportionment follows the largest-remainder method.  For
every pot `P` and non-empty weight set of positive total, (a) every
claimant's share is its base share `floor(P*w/W)` or that plus one (and, the
shares being natural numbers, never negative), (b) the leftover is strictly
smaller than the number of claimants, and (c) each claimant that receives
an extra unit precedes every claimant that does not in the priority order:
strictly larger fractional remainder, or equal remainder and earlier
identity. -/
theorem apportion_largest_remainder (P : Nat) (ws : List Nat) (hW : 0 < ws.sum) :
    (∀ i, i < ws.length →
        (apportion P ws)[i]? = some (baseShare P ws.sum (ws.getD i 0)) ∨
        (apportion P ws)[i]? = some (baseShare P ws.sum (ws.getD i 0) + 1))
  ∧ leftover P ws < ws.length
  ∧ (∀ a ∈ extras P ws, ∀ b ∈ ws.enum, b ∉ extras P ws →
        remShare P ws.sum b.2 < remShare P ws.sum a.2 ∨
          (remShare P ws.sum a.2 = remShare P ws.sum b.2 ∧ a.1 ≤ b.1)) := by
  refine ⟨?_, leftover_lt_length P ws hW, ?_⟩
  · intro i hi
    have hienum : i < ws.enum.length := by
      rw [List.enum_length]; exact hi
    have h1 : (apportion P ws)[i]?
        = some (baseShare P ws.sum (ws.enum.get ⟨i, hienum⟩).2
            + if ws.enum.get ⟨i, hienum⟩ ∈ extras P ws then 1 else 0) := by
      unfold apportion
      rw [if_neg (Nat.pos_iff_ne_zero.mp hW)]
      rw [List.getElem?_map]
      rw [List.getElem?_eq_getElem hienum]
      rfl
    have h2 : (ws.enum.get ⟨i, hienum⟩).2 = ws.getD i 0 := by
      have := List.getElem_enum ws i hienum
      rw [List.getD_eq_getElem ws 0 hi]
      rw [List.get_eq_getElem, this]
    rw [h2] at h1
    by_cases hmem : ws.enum.get ⟨i, hienum⟩ ∈ extras P ws
    · right
      rw [h1, if_pos hmem]
    · left
      rw [h1, if_neg hmem]
      simp
  · intro a ha b hb hnb
    have hsorted := sortedClaimants_sorted P ws
    have hsplit := List.take_append_drop (leftover P ws) (sortedClaimants P ws)
    have hbs : b ∈ sortedClaimants P ws := (sortedClaimants_perm P ws).mem_iff.mpr hb
    have hbdrop : b ∈ (sortedClaimants P ws).drop (leftover P ws) := by
      have := hsplit ▸ hbs
      rcases List.mem_append.mp this with h | h
      · exact absurd h hnb
      · exact h
    have hpair : ((sortedClaimants P ws).take (leftover P ws)
        ++ (sortedClaimants P ws).drop (leftover P ws)).Pairwise
          (remOrder P ws.sum) := by
      rw [hsplit]
      exact hsorted
    exact (List.pairwise_append.mp hpair).2.2 a ha b hbdrop

theorem apportion_largest_remainder_witness :
    0 < ([3, 2] : List Nat).sum ∧
    ((∀ i, i < ([3, 2] : List Nat).length →
        (apportion 1 [3, 2])[i]? = some (baseShare 1 ([3, 2] : List Nat).sum (([3, 2] : List Nat).getD i 0)) ∨
        (apportion 1 [3, 2])[i]? = some (baseShare 1 ([3, 2] : List Nat).sum (([3, 2] : List Nat).getD i 0) + 1))
  ∧ leftover 1 [3, 2] < ([3, 2] : List Nat).length
  ∧ (∀ a ∈ extras 1 [3, 2], ∀ b ∈ ([3, 2] : List Nat).enum, b ∉ extras 1 [3, 2] →
        remShare 1 ([3, 2] : List Nat).sum b.2 < remShare 1 ([3, 2] : List Nat).sum a.2 ∨
          (remShare 1 ([3, 2] : List Nat).sum a.2 = remShare 1 ([3, 2] : List Nat).sum b.2 ∧ a.1 ≤ b.1))) :=
  ⟨by decide, apportion_largest_remainder 1 [3, 2] (by decide)⟩

/-! ## Owner refund calculator (spec section 4.2) -/

/-- Modelled from the spec: `owner_alpha = floor(E * f)` where the owner-cut
fraction `f` is the 16-bit numerator `c` over 65535 (spec section 4.2; the
Rust implementation is not under the provided sources). -/
def ownerAlpha (E c : Nat) : Nat := E * c / 65535

/-- Modelled from the spec: `owner_value = floor(owner_alpha * price)` where
the exchange price is the ratio `pn / pd` (spec section 4.2). -/
def ownerValue (E c pn pd : Nat) : Nat := ownerAlpha E c * pn / pd

/-- Modelled from the spec: `refund = max(0, L - owner_value)` using
saturating subtraction (spec section 4.2). -/
def ownerRefund (L E c pn pd : Nat) : Int :=
  max 0 ((L : Int) - (ownerValue E c pn pd : Int))

/-- Claim C3: owner refund computation.  The amount credited to the network
owner at teardown equals the lock deposit `L` saturating-minus
`floor(floor(E * f) * price)`: the `max 0` form agrees with truncated
natural subtraction, the refund is never negative and never exceeds `L`,
it equals `L` when no network currency was ever emitted, and it equals `0`
when the owner's emission value is at least `L`. -/
theorem owner_refund_correct (L E c pn pd : Nat) (_hpd : 0 < pd) :
    ownerRefund L E c pn pd = ((L - ownerValue E c pn pd : Nat) : Int)
  ∧ 0 ≤ ownerRefund L E c pn pd
  ∧ ownerRefund L E c pn pd ≤ (L : Int)
  ∧ (E = 0 → ownerRefund L E c pn pd = (L : Int))
  ∧ (L ≤ ownerValue E c pn pd → ownerRefund L E c pn pd = 0) := by
  have hval0 : E = 0 → ownerValue E c pn pd = 0 := by
    intro hE
    subst hE
    unfold ownerValue ownerAlpha
    simp
  unfold ownerRefund
  refine ⟨?_, ?_, ?_, ?_, ?_⟩
  · omega
  · exact le_max_left 0 _
  · omega
  · intro hE
    rw [hval0 hE]
    omega
  · intro hle
    omega

theorem owner_refund_correct_witness :
    0 < 1 ∧
    (ownerRefund 2000 800 11796 1 1 = ((2000 - ownerValue 800 11796 1 1 : Nat) : Int)
  ∧ 0 ≤ ownerRefund 2000 800 11796 1 1
  ∧ ownerRefund 2000 800 11796 1 1 ≤ (2000 : Int)
  ∧ (800 = 0 → ownerRefund 2000 800 11796 1 1 = (2000 : Int))
  ∧ (2000 ≤ ownerValue 800 11796 1 1 → ownerRefund 2000 800 11796 1 1 = 0)) :=
  ⟨by decide, owner_refund_correct 2000 800 11796 1 1 (by decide)⟩

/-! ## Eviction selector (spec section 4.4) -/

/-- A live network as seen by the eviction selector: its id, registration
block height, and cumulative emission (sum of its emission record). -/
structure NetInfo where
  uid : Nat
  registeredAt : Nat
  emission : Nat
deriving DecidableEq

/-- Modelled from the spec: a network is eligible for pruning iff its age
`now - registeredAt` is at least the immunity period (spec section 4.4;
`get_network_to_prune` is not under the provided sources). -/
def isEligible (immunity now : Nat) (n : NetInfo) : Bool :=
  decide (immunity ≤ now - n.registeredAt)

/-- Strict preference: `a` is a strictly better pruning candidate than `b`
(lower emission, or equal emission and earlier registration). -/
def pruneBefore (a b : NetInfo) : Bool :=
  a.emission < b.emission || (a.emission == b.emission && a.registeredAt < b.registeredAt)

/-- Non-strict preference: `a` is at least as good a pruning candidate as
`b`. -/
def pruneLE (a b : NetInfo) : Prop :=
  a.emission < b.emission ∨ (a.emission = b.emission ∧ a.registeredAt ≤ b.registeredAt)

/-- Modelled from the spec: scan of the eligible networks keeping the
current best candidate, replaced only on strict improvement, so the
first-seen network wins residual ties (spec section 4.4). -/
def selectBest : NetInfo → List NetInfo → NetInfo
  | b, [] => b
  | b, n :: t => selectBest (if pruneBefore n b then n else b) t

/-- Modelled from the spec: the eviction selector
(`get_network_to_prune`): filter out immune networks, then pick the
minimum-emission network, ties broken by earliest registration; none if no
network is eligible (spec section 4.4). -/
def network_to_prune (immunity now : Nat) (nets : List NetInfo) : Option NetInfo :=
  match nets.filter (isEligible immunity now) with
  | [] => none
  | n :: t => some (selectBest n t)

theorem pruneLE_refl (a : NetInfo) : pruneLE a a := by
  unfold pruneLE
  omega

theorem pruneLE_trans {a b c : NetInfo} (h1 : pruneLE a b) (h2 : pruneLE b c) :
    pruneLE a c := by
  unfold pruneLE at *
  omega

theorem pruneBefore_true {a b : NetInfo} (h : pruneBefore a b = true) :
    pruneLE a b := by
  unfold pruneBefore at h
  unfold pruneLE
  simp only [Bool.or_eq_true, Bool.and_eq_true, decide_eq_true_eq, beq_iff_eq] at h
  omega

theorem pruneBefore_false {a b : NetInfo} (h : pruneBefore a b = false) :
    pruneLE b a := by
  unfold pruneBefore at h
  unfold pruneLE
  simp only [Bool.or_eq_false_iff, Bool.and_eq_false_iff, decide_eq_false_iff_not,
    beq_eq_false_iff_ne, ne_eq] at h
  omega

theorem selectBest_spec (l : List NetInfo) : ∀ b : NetInfo,
    (selectBest b l = b ∨ selectBest b l ∈ l)
  ∧ pruneLE (selectBest b l) b
  ∧ ∀ m ∈ l, pruneLE (selectBest b l) m := by
  induction l with
  | nil =>
    intro b
    exact ⟨Or.inl rfl, pruneLE_refl b, by intro m hm; cases hm⟩
  | cons n t ih =>
    intro b
    unfold selectBest
    cases hpb : pruneBefore n b with
    | true =>
      rw [if_pos rfl]
      rcases ih n with ⟨hmem, hacc, hall⟩
      refine ⟨?_, ?_, ?_⟩
      · rcases hmem with h | h
        · exact Or.inr (by rw [h]; exact List.mem_cons_self n t)
        · exact Or.inr (List.mem_cons_of_mem n h)
      · exact pruneLE_trans hacc (pruneBefore_true hpb)
      · intro m hm
        rcases List.mem_cons.mp hm with h | h
        · exact h ▸ hacc
        · exact hall m h
    | false =>
      rw [if_neg (by simp [hpb])]
      rcases ih b with ⟨hmem, hacc, hall⟩
      refine ⟨?_, ?_, ?_⟩
      · rcases hmem with h | h
        · exact Or.inl h
        · exact Or.inr (List.mem_cons_of_mem n h)
      · exact hacc
      · intro m hm
        rcases List.mem_cons.mp hm with h | h
        · exact h ▸ pruneLE_trans hacc (pruneBefore_false hpb)
        · exact hall m h

/-- Claim C5: eviction selector correctness.  The selector never returns a
network whose age is below the immunity period; it returns none exactly
when no network is eligible (in particular when there are no networks);
and any returned network is an eligible one with globally minimal
cumulative emission, emission ties resolved in favour of the
earliest-registered network. -/
theorem network_to_prune_correct (immunity now : Nat) (nets : List NetInfo) :
    (network_to_prune immunity now nets = none ↔
        ∀ m ∈ nets, isEligible immunity now m = false)
  ∧ (∀ n, network_to_prune immunity now nets = some n →
        n ∈ nets ∧ isEligible immunity now n = true ∧
        immunity ≤ now - n.registeredAt ∧
        ∀ m ∈ nets, isEligible immunity now m = true →
          n.emission < m.emission ∨
            (n.emission = m.emission ∧ n.registeredAt ≤ m.registeredAt)) := by
  constructor
  · unfold network_to_prune
    cases hf : nets.filter (isEligible immunity now) with
    | nil =>
      simp only [true_iff]
      intro m hm
      by_contra hcon
      have : m ∈ nets.filter (isEligible immunity now) :=
        List.mem_filter.mpr ⟨hm, by simpa using hcon⟩
      rw [hf] at this
      cases this
    | cons n t =>
      simp only [reduceCtorEq, false_iff, not_forall]
      have hn : n ∈ nets.filter (isEligible immunity now) := by
        rw [hf]; exact List.mem_cons_self n t
      rcases List.mem_filter.mp hn with ⟨hmem, helig⟩
      exact ⟨n, hmem, by simp [helig]⟩
  · intro n hsome
    unfold network_to_prune at hsome
    cases hf : nets.filter (isEligible immunity now) with
    | nil => rw [hf] at hsome; cases hsome
    | cons h0 t =>
      rw [hf] at hsome
      injection hsome with hsome
      rcases selectBest_spec t h0 with ⟨hmem, hacc, hall⟩
      have hnfilter : n ∈ nets.filter (isEligible immunity now) := by
        rw [hf]
        rcases hmem with hmem | hmem
        · rw [← hsome, hmem]
          exact List.mem_cons_self h0 t
        · rw [← hsome]
          exact List.mem_cons_of_mem h0 hmem
      rcases List.mem_filter.mp hnfilter with ⟨hmemnets, helig⟩
      refine ⟨hmemnets, helig, ?_, ?_⟩
      · have := of_decide_eq_true helig
        exact this
      · intro m hm hmelig
        have hmfilter : m ∈ nets.filter (isEligible immunity now) :=
          List.mem_filter.mpr ⟨hm, hmelig⟩
        rw [hf] at hmfilter
        rcases List.mem_cons.mp hmfilter with hcase | hcase
        · exact hcase ▸ hsome ▸ hacc
        · exact hsome ▸ hall m hcase

/-! ## Settlement engine state and teardown (spec section 4.3) -/

/-- Errors of the lifecycle engine, mirroring the pallet error names used by
the tests. -/
inductive SubtensorError where
  | SubNetworkDoesNotExist
  | NotEnoughBalanceToStake
deriving DecidableEq

/-- The per-network storage of the lifecycle engine.  Sparse items are
optional values or association lists; dense per-network scalars are total
functions; coldkey balances are a total function.  Stake ledger keys are
(hotkey, coldkey, network) triples as in the `Alpha` storage map. -/
structure ChainState where
  netuids : List Nat
  networksAdded : Nat → Bool
  subnetOwner : Nat → Option Nat
  networkRegisteredAt : Nat → Option Nat
  tempo : Nat → Option Nat
  subnetTAO : Nat → Option Nat
  emission : Nat → Option (List Nat)
  subnetLocked : Nat → Option Nat
  uidKeys : List ((Nat × Nat) × Nat)
  alphaLedger : List ((Nat × Nat × Nat) × Nat)
  isNetworkMember : List (Nat × Nat)
  subnetAlphaIn : Nat → Nat
  subnetAlphaOut : Nat → Nat
  totalNetworks : Nat
  balances : Nat → Nat
  subnetOwnerCut : Nat
  alphaPriceNum : Nat
  alphaPriceDen : Nat
  networkLockCost : Nat
  subnetLimit : Nat
  networkImmunityPeriod : Nat
  now : Nat

/-- Credit a list of (coldkey, amount) pairs onto a balance map, additively. -/
def creditMany (bal : Nat → Nat) (credits : List (Nat × Nat)) : Nat → Nat :=
  credits.foldl (fun b p => fun a => if a = p.1 then b a + p.2 else b a) bal

/-- Modelled from the spec: the state produced by a successful teardown of
network `net` (spec section 4.3, steps 2-6): snapshot the stake ledger for
`net`, apportion the pooled base-currency pot over the stake amounts,
credit each staker coldkey, credit the owner the lock refund of spec
section 4.2, then remove every sparse per-network storage item, zero the
dense pool scalars, and decrement the live-network counter. -/
def dissolvedState (s : ChainState) (net : Nat) : ChainState :=
  let stakes := s.alphaLedger.filter fun e => e.1.2.2 == net
  let ws := stakes.map fun e => e.2
  let pot := (s.subnetTAO net).getD 0
  let shares := apportion pot ws
  let credits := (stakes.zip shares).map fun p => (p.1.1.2.1, p.2)
  let bal1 := creditMany s.balances credits
  let lock := (s.subnetLocked net).getD 0
  let emitted := ((s.emission net).getD []).sum
  let refund := lock - ownerValue emitted s.subnetOwnerCut s.alphaPriceNum s.alphaPriceDen
  let owner := (s.subnetOwner net).getD 0
  { s with
    netuids := s.netuids.filter fun u => u != net
    networksAdded := fun n => if n = net then false else s.networksAdded n
    subnetOwner := fun n => if n = net then none else s.subnetOwner n
    networkRegisteredAt := fun n => if n = net then none else s.networkRegisteredAt n
    tempo := fun n => if n = net then none else s.tempo n
    subnetTAO := fun n => if n = net then none else s.subnetTAO n
    emission := fun n => if n = net then none else s.emission n
    subnetLocked := fun n => if n = net then none else s.subnetLocked n
    uidKeys := s.uidKeys.filter fun e => e.1.1 != net
    alphaLedger := s.alphaLedger.filter fun e => e.1.2.2 != net
    isNetworkMember := s.isNetworkMember.filter fun e => e.2 != net
    subnetAlphaIn := fun n => if n = net then 0 else s.subnetAlphaIn n
    subnetAlphaOut := fun n => if n = net then 0 else s.subnetAlphaOut n
    totalNetworks := s.totalNetworks - 1
    balances := fun a => if a = owner then bal1 a + refund else bal1 a }

/-- Modelled from the spec: `do_dissolve_network` validates that the network
exists and otherwise performs the total teardown (spec section 4.3, step 1:
the existence check is the only failure mode). -/
def do_dissolve_network (s : ChainState) (net : Nat) : Except SubtensorError ChainState :=
  if s.networksAdded net = true then Except.ok (dissolvedState s net)
  else Except.error SubtensorError.SubNetworkDoesNotExist

/-- Transactional dispatch of a dissolve: a failing call leaves the state
untouched, as the host runtime applies no writes on error. -/
def dissolveRun (s : ChainState) (net : Nat) : ChainState :=
  match do_dissolve_network s net with
  | Except.ok s1 => s1
  | Except.error _ => s

/-- Modelled from the spec: `do_register_network` checks the caller's
balance against the lock cost before any eviction or charge; only then, if
the network cap is reached, it evicts the prune candidate through the
settlement engine, charges the lock cost and creates the new network
(spec sections 4.4 and 7). -/
def do_register_network (s : ChainState) (cold : Nat) : Except SubtensorError ChainState :=
  if s.balances cold < s.networkLockCost then
    Except.error SubtensorError.NotEnoughBalanceToStake
  else
    let afterPrune : Except SubtensorError ChainState :=
      if s.subnetLimit ≤ s.totalNetworks then
        match network_to_prune s.networkImmunityPeriod s.now
            (s.netuids.map fun u =>
              ⟨u, (s.networkRegisteredAt u).getD 0, ((s.emission u).getD []).sum⟩) with
        | some victim => do_dissolve_network s victim.uid
        | none => Except.error SubtensorError.SubNetworkDoesNotExist
      else Except.ok s
    match afterPrune with
    | Except.error e => Except.error e
    | Except.ok s1 =>
      let newId := s1.totalNetworks + 1
      Except.ok { s1 with
        netuids := newId :: s1.netuids
        networksAdded := fun n => if n = newId then true else s1.networksAdded n
        subnetOwner := fun n => if n = newId then some cold else s1.subnetOwner n
        networkRegisteredAt := fun n => if n = newId then some s1.now
          else s1.networkRegisteredAt n
        totalNetworks := s1.totalNetworks + 1
        balances := fun a => if a = cold then s1.balances a - s.networkLockCost
          else s1.balances a }

/-- Transactional dispatch of a registration: a failing call leaves the
state untouched. -/
def registerRun (s : ChainState) (cold : Nat) : ChainState :=
  match do_register_network s cold with
  | Except.ok s1 => s1
  | Except.error _ => s

/-- Claim C4: teardown completeness.  After a successful
`do_dissolve_network`, every sparse per-network storage item is removed for
that network id, the retained dense pool scalars read back as zero, the
network no longer exists, and the live-network counter decreases by exactly
one. -/
theorem dissolve_clears_network_state (s : ChainState) (net : Nat)
    (hex : s.networksAdded net = true) (hcount : 0 < s.totalNetworks) :
    ∃ s1, do_dissolve_network s net = Except.ok s1
      ∧ s1.networksAdded net = false
      ∧ net ∉ s1.netuids
      ∧ s1.subnetOwner net = none
      ∧ s1.networkRegisteredAt net = none
      ∧ s1.tempo net = none
      ∧ s1.subnetTAO net = none
      ∧ s1.emission net = none
      ∧ s1.subnetLocked net = none
      ∧ (∀ e ∈ s1.uidKeys, e.1.1 ≠ net)
      ∧ (∀ e ∈ s1.alphaLedger, e.1.2.2 ≠ net)
      ∧ (∀ e ∈ s1.isNetworkMember, e.2 ≠ net)
      ∧ s1.subnetAlphaIn net = 0
      ∧ s1.subnetAlphaOut net = 0
      ∧ s1.totalNetworks + 1 = s.totalNetworks := by
  refine ⟨dissolvedState s net, ?_, ?_, ?_, ?_, ?_, ?_, ?_, ?_, ?_, ?_, ?_, ?_, ?_, ?_, ?_⟩
  · unfold do_dissolve_network
    rw [if_pos hex]
  · simp [dissolvedState]
  · intro hmem
    simp only [dissolvedState, List.mem_filter] at hmem
    simp at hmem
  · simp [dissolvedState]
  · simp [dissolvedState]
  · simp [dissolvedState]
  · simp [dissolvedState]
  · simp [dissolvedState]
  · simp [dissolvedState]
  · intro e he
    simp only [dissolvedState, List.mem_filter] at he
    simpa using he.2
  · intro e he
    simp only [dissolvedState, List.mem_filter] at he
    simpa using he.2
  · intro e he
    simp only [dissolvedState, List.mem_filter] at he
    simpa using he.2
  · simp [dissolvedState]
  · simp [dissolvedState]
  · simp only [dissolvedState]
    omega

/-- A concrete populated chain state used to witness the teardown
theorems. -/
def sampleState : ChainState where
  netuids := [1]
  networksAdded := fun n => n == 1
  subnetOwner := fun n => if n = 1 then some 7 else none
  networkRegisteredAt := fun n => if n = 1 then some 0 else none
  tempo := fun n => if n = 1 then some 10 else none
  subnetTAO := fun n => if n = 1 then some 5 else none
  emission := fun n => if n = 1 then some [1, 2] else none
  subnetLocked := fun n => if n = 1 then some 100 else none
  uidKeys := [((1, 0), 3)]
  alphaLedger := [((3, 4, 1), 30), ((5, 6, 1), 70)]
  isNetworkMember := [(4, 1), (6, 1)]
  subnetAlphaIn := fun n => if n = 1 then 2 else 0
  subnetAlphaOut := fun n => if n = 1 then 3 else 0
  totalNetworks := 1
  balances := fun _ => 0
  subnetOwnerCut := 11796
  alphaPriceNum := 1
  alphaPriceDen := 1
  networkLockCost := 100
  subnetLimit := 32
  networkImmunityPeriod := 5
  now := 120

theorem dissolve_clears_network_state_witness :
    sampleState.networksAdded 1 = true ∧ 0 < sampleState.totalNetworks ∧
    (∃ s1, do_dissolve_network sampleState 1 = Except.ok s1
      ∧ s1.networksAdded 1 = false
      ∧ 1 ∉ s1.netuids
      ∧ s1.subnetOwner 1 = none
      ∧ s1.networkRegisteredAt 1 = none
      ∧ s1.tempo 1 = none
      ∧ s1.subnetTAO 1 = none
      ∧ s1.emission 1 = none
      ∧ s1.subnetLocked 1 = none
      ∧ (∀ e ∈ s1.uidKeys, e.1.1 ≠ 1)
      ∧ (∀ e ∈ s1.alphaLedger, e.1.2.2 ≠ 1)
      ∧ (∀ e ∈ s1.isNetworkMember, e.2 ≠ 1)
      ∧ s1.subnetAlphaIn 1 = 0
      ∧ s1.subnetAlphaOut 1 = 0
      ∧ s1.totalNetworks + 1 = sampleState.totalNetworks) :=
  ⟨by decide, by decide,
    dissolve_clears_network_state sampleState 1 (by decide) (by decide)⟩

/-- Claim C6: precondition failure of dissolution.  `do_dissolve_network`
fails with the network-does-not-exist error exactly when the requested
network does not exist, this is its only failure mode, a failing call
leaves the state unchanged, and an existing network always dissolves
successfully. -/
theorem dissolve_requires_existing_network (s : ChainState) (net : Nat) :
    (do_dissolve_network s net = Except.error SubtensorError.SubNetworkDoesNotExist
        ↔ s.networksAdded net = false)
  ∧ (∀ e, do_dissolve_network s net = Except.error e →
        e = SubtensorError.SubNetworkDoesNotExist)
  ∧ (s.networksAdded net = false → dissolveRun s net = s)
  ∧ (s.networksAdded net = true → ∃ s1, do_dissolve_network s net = Except.ok s1) := by
  cases h : s.networksAdded net with
  | true =>
    refine ⟨?_, ?_, ?_, ?_⟩
    · simp [do_dissolve_network, h]
    · intro e he
      rw [do_dissolve_network, if_pos h] at he
      cases he
    · intro hfalse
      cases hfalse
    · intro _
      exact ⟨dissolvedState s net, by rw [do_dissolve_network, if_pos h]⟩
  | false =>
    have herr : do_dissolve_network s net
        = Except.error SubtensorError.SubNetworkDoesNotExist := by
      rw [do_dissolve_network, if_neg (by simp [h])]
    refine ⟨?_, ?_, ?_, ?_⟩
    · simp [herr]
    · intro e he
      rw [herr] at he
      injection he with he
      exact he.symm
    · intro _
      rw [dissolveRun, herr]
    · intro htrue
      cases htrue

/-- Claim C7: registration admission atomicity.  When the caller's balance
is below the lock cost, registration fails with the insufficient-balance
error before any eviction or charge: the dispatched state is exactly the
original one, so every existing network still exists, the live-network
count is unchanged, and the prospective registrant is not charged. -/
theorem register_insufficient_balance_atomic (s : ChainState) (cold : Nat)
    (h : s.balances cold < s.networkLockCost) :
    do_register_network s cold = Except.error SubtensorError.NotEnoughBalanceToStake
  ∧ registerRun s cold = s
  ∧ (∀ n, (registerRun s cold).networksAdded n = s.networksAdded n)
  ∧ (registerRun s cold).totalNetworks = s.totalNetworks
  ∧ (registerRun s cold).balances cold = s.balances cold := by
  have h1 : do_register_network s cold
      = Except.error SubtensorError.NotEnoughBalanceToStake := by
    rw [do_register_network, if_pos h]
  have h2 : registerRun s cold = s := by
    rw [registerRun, h1]
  exact ⟨h1, h2, fun n => by rw [h2], by rw [h2], by rw [h2]⟩

theorem register_insufficient_balance_atomic_witness :
    sampleState.balances 50 < sampleState.networkLockCost ∧
    (do_register_network sampleState 50
        = Except.error SubtensorError.NotEnoughBalanceToStake
  ∧ registerRun sampleState 50 = sampleState
  ∧ (∀ n, (registerRun sampleState 50).networksAdded n = sampleState.networksAdded n)
  ∧ (registerRun sampleState 50).totalNetworks = sampleState.totalNetworks
  ∧ (registerRun sampleState 50).balances 50 = sampleState.balances 50) :=
  ⟨by decide, register_insufficient_balance_atomic sampleState 50 (by decide)⟩

theorem apportion_all_zero_credit (bal : Nat → Nat) (credits : List (Nat × Nat))
    (h : ∀ p ∈ credits, p.2 = 0) : ∀ a, creditMany bal credits a = bal a := by
  induction credits generalizing bal with
  | nil => intro a; rfl
  | cons p t ih =>
    intro a
    have hp := h p (List.mem_cons_self p t)
    have hstep : creditMany bal (p :: t) a
        = creditMany (fun b => if b = p.1 then bal b + p.2 else bal b) t a := rfl
    rw [hstep, ih _ fun q hq => h q (List.mem_cons_of_mem _ hq)]
    by_cases hb : a = p.1
    · rw [if_pos hb, hp, Nat.add_zero]
    · rw [if_neg hb]

/-- Claim C8: zero-pot edge case.  Dissolving a network whose pooled
base-currency balance is zero (with a zero residual lock) credits no
account: every balance is unchanged, yet every stake-ledger entry of the
network is removed. -/
theorem dissolve_zero_pot_no_credit (s : ChainState) (net : Nat)
    (hex : s.networksAdded net = true)
    (hpot : (s.subnetTAO net).getD 0 = 0)
    (hlock : (s.subnetLocked net).getD 0 = 0) :
    ∃ s1, do_dissolve_network s net = Except.ok s1
      ∧ (∀ a, s1.balances a = s.balances a)
      ∧ (∀ e ∈ s1.alphaLedger, e.1.2.2 ≠ net) := by
  refine ⟨dissolvedState s net, by rw [do_dissolve_network, if_pos hex], ?_, ?_⟩
  · intro a
    simp only [dissolvedState]
    rw [hpot, hlock]
    have hz : ∀ p ∈ ((s.alphaLedger.filter fun e => e.1.2.2 == net).zip
        (apportion 0 ((s.alphaLedger.filter fun e => e.1.2.2 == net).map fun e => e.2))).map
          fun p => (p.1.1.2.1, p.2), p.2 = 0 := by
      intro p hp
      rcases List.mem_map.mp hp with ⟨⟨q1, q2⟩, hq, rfl⟩
      exact apportion_zero_pot _ q2 (List.of_mem_zip hq).2
    have hc := apportion_all_zero_credit s.balances _ hz a
    rw [Nat.zero_sub]
    by_cases hb : a = (s.subnetOwner net).getD 0
    · rw [if_pos hb, hc, Nat.add_zero]
    · rw [if_neg hb, hc]
  · intro e he
    simp only [dissolvedState, List.mem_filter] at he
    simpa using he.2

/-- A chain state whose network 1 has a zero pooled pot and zero residual
lock but non-zero stake positions. -/
def zeroPotState : ChainState where
  netuids := [1]
  networksAdded := fun n => n == 1
  subnetOwner := fun n => if n = 1 then some 7 else none
  networkRegisteredAt := fun n => if n = 1 then some 0 else none
  tempo := fun n => if n = 1 then some 10 else none
  subnetTAO := fun n => if n = 1 then some 0 else none
  emission := fun n => if n = 1 then some [] else none
  subnetLocked := fun n => if n = 1 then some 0 else none
  uidKeys := [((1, 0), 3)]
  alphaLedger := [((3, 4, 1), 1000)]
  isNetworkMember := [(4, 1)]
  subnetAlphaIn := fun n => if n = 1 then 2 else 0
  subnetAlphaOut := fun n => if n = 1 then 3 else 0
  totalNetworks := 1
  balances := fun _ => 0
  subnetOwnerCut := 11796
  alphaPriceNum := 1
  alphaPriceDen := 1
  networkLockCost := 100
  subnetLimit := 32
  networkImmunityPeriod := 5
  now := 120

theorem dissolve_zero_pot_no_credit_witness :
    zeroPotState.networksAdded 1 = true ∧
    (zeroPotState.subnetTAO 1).getD 0 = 0 ∧
    (zeroPotState.subnetLocked 1).getD 0 = 0 ∧
    (∃ s1, do_dissolve_network zeroPotState 1 = Except.ok s1
      ∧ (∀ a, s1.balances a = zeroPotState.balances a)
      ∧ (∀ e ∈ s1.alphaLedger, e.1.2.2 ≠ 1)) :=
  ⟨by decide, by decide, by decide,
    dissolve_zero_pot_no_credit zeroPotState 1 (by decide) (by decide) (by decide)⟩

/-! ## Coldkey-swap-scheduled migration
(embedded from `migrations/migrate_coldkey_swap_scheduled.rs`) -/

/-- A value stored under the `ColdkeySwapScheduled` key.  Before the
migration the map holds old-format raw values, which either decode as the
unit value of the deprecated storage alias or fail to decode; after it, the
map holds new-format (block number, new coldkey) pairs. -/
inductive SwapVal where
  | oldFormat (decodable : Bool)
  | newFormat (block : Nat) (newColdkey : Nat)
deriving DecidableEq

/-- Whether `try_get` on the deprecated storage alias succeeds for this
value. -/
def decodesAsUnit : SwapVal → Bool
  | SwapVal.oldFormat d => d
  | SwapVal.newFormat _ _ => true

/-- Embeds `DefaultColdkeySwapScheduled`: the default (block, new coldkey)
value of the new storage format. -/
def defaultColdkeySwapScheduled : Nat × Nat := (0, 0)

/-- Embeds the local `scheduled_map` of `migrate_coldkey_swap_scheduled`:
the loop that would populate it is commented out in the source, so the map
is always empty when `translate` consults it. -/
def scheduled_map : List (Nat × (Nat × Nat)) := []

/-- The storage touched by `migrate_coldkey_swap_scheduled`: its has-run
flag in `HasMigrationRun` and the `ColdkeySwapScheduled` map (keys are
coldkey account ids). -/
structure MigrationState where
  hasMigrationRun : Bool
  coldkeySwapScheduled : List (Nat × SwapVal)
deriving DecidableEq

/-- Embeds `migrate_coldkey_swap_scheduled`: if the has-run flag is set,
skip; otherwise remove the entries whose old value fails to decode, then
translate every remaining entry to the (block, new coldkey) pair found in
`scheduled_map` or, failing that, the default value, and finally set the
has-run flag. -/
def migrate_coldkey_swap_scheduled (s : MigrationState) : MigrationState :=
  if s.hasMigrationRun then s
  else
    let cleaned := s.coldkeySwapScheduled.filter fun e => decodesAsUnit e.2
    let translated := cleaned.map fun e =>
      let v := (scheduled_map.lookup e.1).getD defaultColdkeySwapScheduled
      (e.1, SwapVal.newFormat v.1 v.2)
    { hasMigrationRun := true, coldkeySwapScheduled := translated }

/-- Claim C9: migration-guard idempotence.  Running the guarded migration
when its has-run flag is already true performs no storage transform (the
state after the second run equals the state before it), a completed run
always leaves the flag true, and hence running the migration twice is the
same as running it once: the flag, once true, is never reset. -/
theorem migration_guard_idempotent (s : MigrationState) :
    (s.hasMigrationRun = true → migrate_coldkey_swap_scheduled s = s)
  ∧ (migrate_coldkey_swap_scheduled s).hasMigrationRun = true
  ∧ migrate_coldkey_swap_scheduled (migrate_coldkey_swap_scheduled s)
      = migrate_coldkey_swap_scheduled s := by
  have hflag : (migrate_coldkey_swap_scheduled s).hasMigrationRun = true := by
    rw [migrate_coldkey_swap_scheduled]
    cases h : s.hasMigrationRun with
    | true => rw [if_pos rfl]; exact h
    | false => rw [if_neg (by simp)]
  refine ⟨?_, hflag, ?_⟩
  · intro h
    rw [migrate_coldkey_swap_scheduled, if_pos h]
  · rw [migrate_coldkey_swap_scheduled, if_pos hflag]

/-- Claim C10: after a first run of `migrate_coldkey_swap_scheduled`, every
retained key of the `ColdkeySwapScheduled` map is mapped to exactly the
default value (the translation lookup map is never populated, so no
old-format data is carried over), and a key is retained exactly when its
old value was decodable; undecodable entries are removed entirely. -/
theorem migration_translates_to_default (s : MigrationState)
    (h : s.hasMigrationRun = false) :
    (∀ e ∈ (migrate_coldkey_swap_scheduled s).coldkeySwapScheduled,
        e.2 = SwapVal.newFormat defaultColdkeySwapScheduled.1
          defaultColdkeySwapScheduled.2)
  ∧ (∀ k, (∃ v, (k, v) ∈ (migrate_coldkey_swap_scheduled s).coldkeySwapScheduled) ↔
        ∃ v, (k, v) ∈ s.coldkeySwapScheduled ∧ decodesAsUnit v = true) := by
  have hrun : migrate_coldkey_swap_scheduled s
      = { hasMigrationRun := true,
          coldkeySwapScheduled :=
            (s.coldkeySwapScheduled.filter fun e => decodesAsUnit e.2).map fun e =>
              let v := (scheduled_map.lookup e.1).getD defaultColdkeySwapScheduled
              (e.1, SwapVal.newFormat v.1 v.2) } := by
    rw [migrate_coldkey_swap_scheduled, if_neg (by simp [h])]
  constructor
  · intro e he
    rw [hrun] at he
    rcases List.mem_map.mp he with ⟨q, _, rfl⟩
    rfl
  · intro k
    rw [hrun]
    constructor
    · rintro ⟨v, hv⟩
      rcases List.mem_map.mp hv with ⟨q, hq, heq⟩
      rcases List.mem_filter.mp hq with ⟨hmem, hdec⟩
      have hk : q.1 = k := congrArg Prod.fst heq
      refine ⟨q.2, ?_, hdec⟩
      rw [← hk]
      exact hmem
    · rintro ⟨v, hmem, hdec⟩
      refine ⟨SwapVal.newFormat defaultColdkeySwapScheduled.1
        defaultColdkeySwapScheduled.2, ?_⟩
      exact List.mem_map.mpr ⟨(k, v), List.mem_filter.mpr ⟨hmem, hdec⟩, rfl⟩

/-- A concrete pre-migration storage with decodable and undecodable
entries. -/
def sampleMigrationState : MigrationState where
  hasMigrationRun := false
  coldkeySwapScheduled :=
    [(1, SwapVal.oldFormat true), (2, SwapVal.oldFormat false),
     (3, SwapVal.oldFormat true)]

theorem migration_translates_to_default_witness :
    sampleMigrationState.hasMigrationRun = false ∧
    ((∀ e ∈ (migrate_coldkey_swap_scheduled sampleMigrationState).coldkeySwapScheduled,
        e.2 = SwapVal.newFormat defaultColdkeySwapScheduled.1
          defaultColdkeySwapScheduled.2)
  ∧ (∀ k, (∃ v, (k, v) ∈
        (migrate_coldkey_swap_scheduled sampleMigrationState).coldkeySwapScheduled) ↔
        ∃ v, (k, v) ∈ sampleMigrationState.coldkeySwapScheduled ∧
          decodesAsUnit v = true)) :=
  ⟨by decide, migration_translates_to_default sampleMigrationState (by decide)⟩

end Subtensor
